/-
Verification of the ID3-style decision-tree learner in `treehe1.py`.

The Python source is shallowly embedded below.  Python machinery is modelled
as follows:

* an example row `[v0, ..., vk-1, label]` is the structure `Example` with
  `attrs = [v0, ..., vk-1]` and `label` the trailing class label (the spec's
  data model: every row has its feature values followed by one label, and all
  rows of a table share the same arity);
* Python `dict`s keyed by feature index are association lists
  `List (Nat × List α)` whose order is the dict's insertion order; a Python
  `set` of values is a deduplicated list (`List.dedup`), its iteration order
  one fixed order of the distinct elements;
* Python exceptions are modelled by `Except PyExn`: `valueError` is the
  `ValueError` raised by `max()` on an empty sequence, `keyError` the
  `KeyError` of a missing dict key, `indexError` the `IndexError` of an
  out-of-range sequence index (`KeyError` and `IndexError` are the two
  `LookupError`s the program can raise);
* floating point arithmetic (`math.log(x, 2.0)` and float division) is
  idealised as exact real arithmetic, with `Real.logb 2` for base-2 logarithm.
-/
import Mathlib

namespace Treehe1

variable {α : Type} [DecidableEq α]

/-- One example row: its feature values (`attrs`) and its trailing class
label.  Mirrors a Python list `[v0, ..., vk-1, label]`. -/
structure Example (α : Type) where
  attrs : List α
  label : α
deriving DecidableEq, Repr

/-- Value of feature `i` of an example: Python `example[feature_index]`.
Rows are assumed to have uniform arity (spec data model), so every feature
index the program uses is in range; the out-of-range `IndexError` case is not
modelled (the default returned for an out-of-range index is never relevant). -/
def fval (e : Example α) (i : Nat) : α :=
  e.attrs.getD i e.label

/-- Python exceptions the program can raise. -/
inductive PyExn where
  | valueError
  | keyError
  | indexError
deriving DecidableEq, Repr

/-- A node of the learned tree, mirroring class `TreeNode`: a split feature
index (`-1` marks a leaf), a mapping from feature values to optional child
nodes (a `dict`, modelled as an association list in insertion order; `none`
is Python's `None`), and the majority class label. -/
inductive TreeNode (α : Type) where
  | mk (split_feature : Int) (children : List (α × Option (TreeNode α)))
      (majority_class : α)

/-- Split feature index of a node. -/
def TreeNode.split_feature : TreeNode α → Int
  | .mk sf _ _ => sf

/-- Children mapping of a node. -/
def TreeNode.children : TreeNode α → List (α × Option (TreeNode α))
  | .mk _ ch _ => ch

/-- Majority class label of a node. -/
def TreeNode.majority_class : TreeNode α → α
  | .mk _ _ m => m

/-- Python `filter_examples`: the sublist of examples whose feature `i`
equals `v`. -/
def filter_examples (examples : List (Example α)) (i : Nat) (v : α) :
    List (Example α) :=
  examples.filter (fun e => decide (fval e i = v))

/-- Python `majority_class`: `max(set(classes), key = classes.count)`.
`max` scans the distinct labels in iteration order and replaces the current
best only on a strictly larger count, so on ties the earlier element wins;
on an empty list `max` raises `ValueError`, modelled by `none`. -/
def majority_class (examples : List (Example α)) : Option α :=
  let classes := examples.map Example.label
  match classes.dedup with
  | [] => none
  | c :: cs =>
      some (cs.foldl
        (fun acc x => if classes.count acc < classes.count x then x else acc) c)

/-- Python `same_class`: whether all examples carry one single class label. -/
def same_class (examples : List (Example α)) : Bool :=
  decide ((examples.map Example.label).dedup.length = 1)

/-- Python `entropy`: Shannon entropy (base 2) of the empirical class-label
distribution, written exactly as the source computes it: distinct labels,
their counts, the sum of the counts, and a guarded `- p * log2 p` term per
count. -/
noncomputable def entropy (examples : List (Example α)) : ℝ :=
  let classes := examples.map Example.label
  let class_counts := classes.dedup.map (fun c => classes.count c)
  let class_sum := class_counts.sum
  (class_counts.map (fun (k : ℕ) =>
    if 0 < k then
      -((k : ℝ) / (class_sum : ℝ)) * Real.logb 2 ((k : ℝ) / (class_sum : ℝ))
    else 0)).sum

/-- First-match lookup of a feature index in the feature-domain map:
Python `features[feature_index]` (`none` models `KeyError`). -/
def lookupDom (features : List (Nat × List α)) (i : Nat) : Option (List α) :=
  match features with
  | [] => none
  | p :: rest => if p.1 = i then some p.2 else lookupDom rest i

/-- Python `split_entropy`: the expected post-split entropy of splitting on
feature `i`, summing `|subset|/|examples| * entropy subset` over the values
in `features[i]`.  Callers always pass a key of the map; for a missing key
the model uses the empty domain (giving `0.0`) where Python would raise. -/
noncomputable def split_entropy (i : Nat) (features : List (Nat × List α))
    (examples : List (Example α)) : ℝ :=
  (((lookupDom features i).getD []).map (fun v =>
    ((filter_examples examples i v).length : ℝ) / (examples.length : ℝ) *
      entropy (filter_examples examples i v))).sum

/-- Python `best_feature`: scan the keys of `features` in order, keeping the
first index whose split entropy is strictly below the best so far, starting
from the sentinel pair `(-1, 2.0)` (the source wrongly assumes entropy never
reaches `2.0`). -/
noncomputable def best_feature (features : List (Nat × List α))
    (examples : List (Example α)) : Int :=
  (List.foldl
    (fun (acc : Int × ℝ) (p : Nat × List α) =>
      let se := split_entropy p.1 features examples
      if se < acc.2 then (((p.1 : Int), se) : Int × ℝ) else acc)
    (((-1 : Int), (2 : ℝ)) : Int × ℝ) features).1

/-- Python `remaining_features.pop(best_feature_index)` together with the
lookup `features[best_feature_index]`: remove the (first) entry whose key
equals `i` and return its domain and the remaining map; `none` models the
`KeyError` raised when no key matches (in particular when `i = -1`). -/
def popF (features : List (Nat × List α)) (i : Int) :
    Option (List α × List (Nat × List α)) :=
  match features with
  | [] => none
  | p :: rest =>
      if (p.1 : Int) = i then some (p.2, rest)
      else
        match popF rest i with
        | none => none
        | some (d, r) => some (d, p :: r)

/-- Popping an entry shortens the map by exactly one entry (proof term used
by the termination argument of the tree builder). -/
def popF_length : ∀ (features : List (Nat × List α)) (i : Int)
    (d : List α) (r : List (Nat × List α)),
    popF features i = some (d, r) → r.length + 1 = features.length := by
  intro features i
  induction features with
  | nil => intro d r h; simp [popF] at h
  | cons p rest ih =>
      intro d r h
      rw [popF] at h
      by_cases hc : (p.1 : Int) = i
      · rw [if_pos hc] at h
        injection h with h
        injection h with h1 h2
        subst h2
        simp
      · rw [if_neg hc] at h
        cases hr : popF rest i with
        | none => rw [hr] at h; cases h
        | some pr =>
            obtain ⟨d0, r0⟩ := pr
            rw [hr] at h
            injection h with h
            injection h with h1 h2
            subst h2
            have := ih d0 r0 hr
            simp only [List.length_cons]
            omega

mutual
/-- Python `build_tree_1`: compute the majority class (raising `ValueError`
on an empty example list), return a leaf if all examples share a class or no
features remain, otherwise split on `best_feature`, pop it from the map
passed to children (raising `KeyError` if it is not a key, e.g. `-1`), and
build one child per domain value of the split feature. -/
noncomputable def build_tree_1 (examples : List (Example α))
    (features : List (Nat × List α)) : Except PyExn (TreeNode α) :=
  match majority_class examples with
  | none => .error .valueError
  | some maj =>
    if same_class examples then .ok (.mk (-1) [] maj)
    else if features = [] then .ok (.mk (-1) [] maj)
    else
      match hp : popF features (best_feature features examples) with
      | none => .error .keyError
      | some (dom, remaining) =>
          match build_children examples
              (best_feature features examples).toNat dom remaining with
          | .error e => .error e
          | .ok ch => .ok (.mk (best_feature features examples) ch maj)
termination_by (features.length, 0)
decreasing_by
  have hl := popF_length features (best_feature features examples)
    dom remaining hp
  apply Prod.Lex.left
  omega

/-- The `for feature_value in features[best_feature_index]` loop of
`build_tree_1`: build a child from the filtered subset for each value of the
split feature's domain, in domain order.  The Python loop stores the result
of the recursive call unconditionally, so the recursion also runs on empty
subsets (where it raises). -/
noncomputable def build_children (examples : List (Example α)) (bf : Nat)
    (dom : List α) (remaining : List (Nat × List α)) :
    Except PyExn (List (α × Option (TreeNode α))) :=
  match dom with
  | [] => .ok []
  | v :: vs =>
      match build_tree_1 (filter_examples examples bf v) remaining with
      | .error e => .error e
      | .ok c =>
          match build_children examples bf vs remaining with
          | .error e => .error e
          | .ok rest => .ok ((v, some c) :: rest)
termination_by (remaining.length, dom.length + 1)
decreasing_by
  · apply Prod.Lex.right
    simp only [List.length_cons]
    omega
  · apply Prod.Lex.right
    simp only [List.length_cons]
    omega
end

/-- Python `build_tree`: `None` for an empty example table, otherwise collect
each feature's set of observed values over the whole table and call the
recursive builder. -/
noncomputable def build_tree (examples : List (Example α)) :
    Except PyExn (Option (TreeNode α)) :=
  match examples with
  | [] => .ok none
  | e0 :: _ =>
      match build_tree_1 examples
          ((List.range e0.attrs.length).map
            (fun i => (i, (examples.map (fun e => fval e i)).dedup))) with
      | .error e => .error e
      | .ok t => .ok (some t)

/-- Python sequence indexing `l[i]` with an `Int` index: non-negative indices
from the front, negative indices from the back, `none` for the out-of-range
`IndexError`. -/
def pyIdx (l : List α) (i : Int) : Option α :=
  if 0 ≤ i then l.get? i.toNat
  else if 0 ≤ (l.length : Int) + i then l.get? ((l.length : Int) + i).toNat
  else none

mutual
/-- Python `classify`: leaves return their majority class; internal nodes
index the instance at the split feature (`IndexError` possible), look the
value up in the children dict (`KeyError` when absent), return the node's own
majority class when the stored child is `None`, and recurse otherwise. -/
def classify : TreeNode α → List α → Except PyExn α
  | .mk sf ch maj, inst =>
    if sf = -1 then .ok maj
    else
      match pyIdx inst sf with
      | none => .error .indexError
      | some key => classifyLookup ch key maj inst

/-- The dict lookup `tree_node.children[instance[...]]` of `classify`,
followed by the `if child_node:` test: first-match lookup of `key`; a missing
key is a `KeyError`, a `None` child yields the parent's majority class, a
real child recurses. -/
def classifyLookup : List (α × Option (TreeNode α)) → α → α → List α →
    Except PyExn α
  | [], _, _, _ => .error .keyError
  | (v, c) :: rest, key, maj, inst =>
    if v = key then
      match c with
      | none => .ok maj
      | some child => classify child inst
    else classifyLookup rest key maj inst
end

/-- Plain first-match lookup in a children mapping (the mathematical reading
of a Python dict access, used to state properties of `classify`). -/
def lookupChild : List (α × Option (TreeNode α)) → α →
    Option (Option (TreeNode α))
  | [], _ => none
  | (v, c) :: rest, key => if v = key then some c else lookupChild rest key

mutual
/-- Whether `classify` on this tree and instance reaches an internal node
whose children mapping has no key equal to the instance's value for that
node's split feature (the traversal mirrors `classify`). -/
def hitsMissingKey : TreeNode α → List α → Bool
  | .mk sf ch _, inst =>
    if sf = -1 then false
    else
      match pyIdx inst sf with
      | none => false
      | some key => hitsMissingChildren ch key inst

/-- Children part of `hitsMissingKey`: scanning past non-matching keys; an
exhausted mapping means the key is absent. -/
def hitsMissingChildren : List (α × Option (TreeNode α)) → α → List α → Bool
  | [], _, _ => true
  | (v, c) :: rest, key, inst =>
    if v = key then
      match c with
      | none => false
      | some child => hitsMissingKey child inst
    else hitsMissingChildren rest key inst
end

mutual
/-- Well-formedness of a tree for classifying instances of arity `n`: every
internal node's split feature is a valid index `0 ≤ sf < n` (trees built from
a uniform-arity table and full-arity instances, per the spec data model). -/
def splitsValid : TreeNode α → Nat → Bool
  | .mk sf ch _, n =>
    (sf == -1 || (decide (0 ≤ sf) && decide (sf.toNat < n))) &&
      childrenValid ch n

/-- Children part of `splitsValid`. -/
def childrenValid : List (α × Option (TreeNode α)) → Nat → Bool
  | [], _ => true
  | (_, none) :: rest, n => childrenValid rest n
  | (_, some c) :: rest, n => splitsValid c n && childrenValid rest n
end

mutual
/-- Depth of a tree: number of splits along the longest root-to-leaf path
(a leaf or a node whose children are all `None` markers has depth `0`). -/
def depth : TreeNode α → Nat
  | .mk _ ch _ => depthChildren ch

/-- Children part of `depth`. -/
def depthChildren : List (α × Option (TreeNode α)) → Nat
  | [] => 0
  | (_, none) :: rest => depthChildren rest
  | (_, some c) :: rest => Nat.max (1 + depth c) (depthChildren rest)
end

/-- Size of a child is smaller than the size of any node whose children
mapping contains it (used to justify recursion over stored children). -/
def sizeOf_child_lt [SizeOf α] (sf : Int)
    (ch : List (α × Option (TreeNode α))) (m : α) (v : α) (c : TreeNode α)
    (hm : (v, some c) ∈ ch) : sizeOf c < sizeOf (TreeNode.mk sf ch m) := by
  have h1 : sizeOf (v, some c) < sizeOf ch := List.sizeOf_lt_of_mem hm
  have h2 : sizeOf (TreeNode.mk sf ch m) = 1 + sizeOf sf + sizeOf ch + sizeOf m := by
    simp only [TreeNode.mk.sizeOf_spec]
  simp only [Prod.mk.sizeOf_spec, Option.some.sizeOf_spec] at h1
  omega

/-- For every node of the tree, the keys of its children mapping are exactly
the feature values observed, for the node's split feature, among the examples
from which that node was built (`examples` at the root, the filtered subset
at each child). -/
def childKeysObserved : TreeNode α → List (Example α) → Prop
  | .mk sf ch _, examples =>
    (sf ≠ -1 →
      ∀ x, x ∈ ch.map Prod.fst ↔ x ∈ examples.map (fun e => fval e sf.toNat)) ∧
    ∀ v c, (v, some c) ∈ ch →
      childKeysObserved c (filter_examples examples sf.toNat v)
termination_by t => sizeOf t
decreasing_by
  exact sizeOf_child_lt _ _ _ _ _ (by assumption)

/-- For every node of the tree built from `examples`: the split feature is
`-1` exactly when the children mapping is empty, an internal node's split
feature is non-negative, and the stored majority class is a label occurring
among the node's examples with maximal occurrence count. -/
def allNodesGood : TreeNode α → List (Example α) → Prop
  | .mk sf ch maj, examples =>
    (sf = -1 ↔ ch = []) ∧
    (sf ≠ -1 → 0 ≤ sf) ∧
    maj ∈ examples.map Example.label ∧
    (∀ c, (examples.map Example.label).count c ≤
      (examples.map Example.label).count maj) ∧
    ∀ v c, (v, some c) ∈ ch →
      allNodesGood c (filter_examples examples sf.toNat v)
termination_by t => sizeOf t
decreasing_by
  exact sizeOf_child_lt _ _ _ _ _ (by assumption)

/-- Every root-to-leaf path splits on a sequence of feature indices drawn
without repetition from `keys`: an internal node's split feature is some
`k ∈ keys`, and each child's splits draw from `keys` with that one `k`
removed (so one feature is consumed per level and never reused below). -/
def consumesFrom : TreeNode α → List Nat → Prop
  | .mk sf ch _, keys =>
    ch = [] ∨
    ∃ k, k ∈ keys ∧ (k : Int) = sf ∧
      ∀ v c, (v, some c) ∈ ch → consumesFrom c (keys.erase k)
termination_by t => sizeOf t
decreasing_by
  exact sizeOf_child_lt _ _ _ _ _ (by assumption)

/-- Natural-log Shannon entropy of the class-label distribution of a list of
examples, in Finset form: `entropy` equals `nent / log 2` (proved below).
This is the form the concavity (Jensen) arguments are carried out in. -/
noncomputable def nent (examples : List (Example α)) : ℝ :=
  ∑ c in (examples.map Example.label).toFinset,
    Real.negMulLog (((examples.map Example.label).count c : ℝ) /
      (examples.length : ℝ))

/- ### Basic lemmas about the embedded operations -/

theorem mem_filter_examples {examples : List (Example α)} {i : Nat} {v : α}
    {e : Example α} :
    e ∈ filter_examples examples i v ↔ e ∈ examples ∧ fval e i = v := by
  simp [filter_examples, List.mem_filter]

theorem majority_class_nil : majority_class ([] : List (Example α)) = none := by
  simp [majority_class]

theorem majority_class_ne_nil {examples : List (Example α)} {m : α}
    (h : majority_class examples = some m) : examples ≠ [] := by
  intro hnil
  subst hnil
  simp [majority_class] at h

theorem foldl_pick_mem (classes : List α) :
    ∀ (cs : List α) (c : α),
      cs.foldl (fun acc x =>
        if classes.count acc < classes.count x then x else acc) c ∈ c :: cs := by
  intro cs
  induction cs with
  | nil => intro c; simp
  | cons y ys ih =>
      intro c
      simp only [List.foldl_cons]
      by_cases hcy : classes.count c < classes.count y
      · rw [if_pos hcy]
        rcases List.mem_cons.mp (ih y) with h | h
        · simp [h]
        · simp [List.mem_cons, h]
      · rw [if_neg hcy]
        rcases List.mem_cons.mp (ih c) with h | h
        · simp [h]
        · simp [List.mem_cons, h]

theorem foldl_pick_count (classes : List α) :
    ∀ (cs : List α) (c x : α), x ∈ c :: cs →
      classes.count x ≤ classes.count
        (cs.foldl (fun acc x =>
          if classes.count acc < classes.count x then x else acc) c) := by
  intro cs
  induction cs with
  | nil =>
      intro c x hx
      simp only [List.mem_singleton] at hx
      subst hx
      simp
  | cons y ys ih =>
      intro c x hx
      simp only [List.foldl_cons]
      have hstep : classes.count c ≤
          classes.count (if classes.count c < classes.count y then y else c) ∧
          classes.count y ≤
          classes.count (if classes.count c < classes.count y then y else c) := by
        by_cases hcy : classes.count c < classes.count y
        · rw [if_pos hcy]
          exact ⟨Nat.le_of_lt hcy, Nat.le_refl _⟩
        · rw [if_neg hcy]
          exact ⟨Nat.le_refl _, Nat.le_of_not_lt hcy⟩
      rcases List.mem_cons.mp hx with hx | hx
      · subst hx
        exact le_trans hstep.1
          (ih (if classes.count x < classes.count y then y else x) _
            (List.mem_cons_self _ _))
      · rcases List.mem_cons.mp hx with hx | hx
        · subst hx
          exact le_trans hstep.2
            (ih (if classes.count c < classes.count x then x else c) _
              (List.mem_cons_self _ _))
        · exact ih _ x (List.mem_cons_of_mem _ hx)

theorem majority_class_spec {examples : List (Example α)} {m : α}
    (h : majority_class examples = some m) :
    m ∈ examples.map Example.label ∧
      ∀ c, (examples.map Example.label).count c ≤
        (examples.map Example.label).count m := by
  have h' : (match (examples.map Example.label).dedup with
      | [] => (none : Option α)
      | c :: cs => some (cs.foldl (fun acc x =>
          if (examples.map Example.label).count acc <
              (examples.map Example.label).count x then x else acc) c)) =
      some m := h
  cases hd : (examples.map Example.label).dedup with
  | nil => rw [hd] at h'; cases h'
  | cons c cs =>
      rw [hd] at h'
      injection h' with h
      constructor
      · have hm : m ∈ c :: cs := by
          rw [← h]
          exact foldl_pick_mem _ cs c
        rw [← hd] at hm
        exact List.mem_dedup.mp hm
      · intro x
        by_cases hx : x ∈ examples.map Example.label
        · have hx' : x ∈ c :: cs := by
            rw [← hd]
            exact List.mem_dedup.mpr hx
          rw [← h]
          exact foldl_pick_count _ cs c x hx'
        · rw [List.count_eq_zero_of_not_mem hx]
          exact Nat.zero_le _

theorem popF_spec :
    ∀ (features : List (Nat × List α)) (i : Int) (d : List α)
      (r : List (Nat × List α)),
      popF features i = some (d, r) →
      ∃ k : Nat, (k, d) ∈ features ∧ (k : Int) = i ∧
        r.map Prod.fst = (features.map Prod.fst).erase k ∧
        r.Sublist features := by
  intro features i
  induction features with
  | nil => intro d r h; simp [popF] at h
  | cons p rest ih =>
      intro d r h
      rw [popF] at h
      by_cases hc : (p.1 : Int) = i
      · rw [if_pos hc] at h
        injection h with h
        injection h with h1 h2
        subst h1
        subst h2
        refine ⟨p.1, ?_, hc, ?_, List.sublist_cons_self _ _⟩
        · simp
        · simp [List.erase_cons_head]
      · rw [if_neg hc] at h
        cases hr : popF rest i with
        | none => rw [hr] at h; cases h
        | some pr =>
            obtain ⟨d0, r0⟩ := pr
            rw [hr] at h
            injection h with h
            injection h with h1 h2
            subst h1
            subst h2
            obtain ⟨k, hk1, hk2, hk3, hk4⟩ := ih d0 r0 hr
            have hpk : p.1 ≠ k := by
              intro hpk
              apply hc
              rw [hpk, hk2]
            refine ⟨k, List.mem_cons_of_mem _ hk1, hk2, ?_, hk4.cons₂ p⟩
            simp only [List.map_cons]
            rw [hk3, List.erase_cons_tail]
            simp [hpk]

theorem build_children_spec :
    ∀ (dom : List α) (examples : List (Example α)) (bf : Nat)
      (remaining : List (Nat × List α)) (l : List (α × Option (TreeNode α))),
      build_children examples bf dom remaining = .ok l →
      l.map Prod.fst = dom ∧
        ∀ pr ∈ l, ∃ v c, pr = (v, some c) ∧
          build_tree_1 (filter_examples examples bf v) remaining = .ok c := by
  intro dom
  induction dom with
  | nil =>
      intro examples bf remaining l h
      rw [build_children] at h
      injection h with h
      subst h
      simp
  | cons v vs ih =>
      intro examples bf remaining l h
      rw [build_children] at h
      cases hc : build_tree_1 (filter_examples examples bf v) remaining with
      | error e => rw [hc] at h; cases h
      | ok c =>
          rw [hc] at h
          cases hrest : build_children examples bf vs remaining with
          | error e => rw [hrest] at h; cases h
          | ok rest =>
              rw [hrest] at h
              injection h with h
              subst h
              obtain ⟨ih1, ih2⟩ := ih examples bf remaining rest hrest
              constructor
              · simp [ih1]
              · intro pr hpr
                rcases List.mem_cons.mp hpr with hpr | hpr
                · exact ⟨v, c, hpr, hc⟩
                · exact ih2 pr hpr

theorem build_tree_1_ok_ne_nil {examples : List (Example α)}
    {features : List (Nat × List α)} {t : TreeNode α}
    (h : build_tree_1 examples features = .ok t) : examples ≠ [] := by
  intro hnil
  subst hnil
  rw [build_tree_1] at h
  simp [majority_class] at h

theorem depthChildren_le {ch : List (α × Option (TreeNode α))} {d : Nat}
    (h : ∀ v c, (v, some c) ∈ ch → depth c ≤ d) :
    depthChildren ch ≤ d + 1 := by
  induction ch with
  | nil => simp [depthChildren]
  | cons p rest ih =>
      obtain ⟨v, oc⟩ := p
      cases oc with
      | none =>
          rw [depthChildren]
          exact ih (fun v c hm => h v c (List.mem_cons_of_mem _ hm))
      | some c =>
          rw [depthChildren]
          have h1 : depth c ≤ d := h v c (List.mem_cons_self _ _)
          have h2 := ih (fun v c hm => h v c (List.mem_cons_of_mem _ hm))
          exact Nat.max_le.mpr ⟨by omega, h2⟩

theorem leaf_invariants {examples : List (Example α)} {maj : α}
    (keys : List Nat) (len : Nat)
    (hm : majority_class examples = some maj) :
    childKeysObserved (.mk (-1) [] maj) examples ∧
      allNodesGood (.mk (-1) [] maj) examples ∧
      consumesFrom (.mk (-1) [] maj) keys ∧
      depth (.mk (-1) [] maj : TreeNode α) ≤ len := by
  obtain ⟨hmem, hcount⟩ := majority_class_spec hm
  refine ⟨?_, ?_, ?_, ?_⟩
  · rw [childKeysObserved]
    refine ⟨fun hne => absurd rfl hne, ?_⟩
    intro v c hc
    simp at hc
  · rw [allNodesGood]
    refine ⟨⟨fun _ => rfl, fun _ => rfl⟩, fun hne => absurd rfl hne, hmem,
      hcount, ?_⟩
    intro v c hc
    simp at hc
  · rw [consumesFrom]
    exact Or.inl rfl
  · rw [depth, depthChildren]
    exact Nat.zero_le _

/- ### The master invariant of the recursive tree builder

A successful run of `build_tree_1 examples features`, where every domain in
`features` covers the values its feature takes on `examples`, yields a tree
whose every node (i) keys its children mapping exactly by the feature values
observed at that node, (ii) is a well-formed leaf or internal node with a
maximal-count majority class, (iii) consumes one feature per level without
reuse along paths, and (iv) has depth at most the number of features. -/
theorem build_tree_1_invariants :
    ∀ (n : Nat) (features : List (Nat × List α)) (examples : List (Example α))
      (t : TreeNode α),
      features.length ≤ n →
      build_tree_1 examples features = .ok t →
      (∀ p ∈ features, ∀ e ∈ examples, fval e p.1 ∈ p.2) →
      childKeysObserved t examples ∧ allNodesGood t examples ∧
        consumesFrom t (features.map Prod.fst) ∧
        depth t ≤ features.length := by
  intro n
  induction n with
  | zero =>
      intro features examples t hlen hb hdom
      have hfe : features = [] := List.length_eq_zero.mp (Nat.le_zero.mp hlen)
      subst hfe
      rw [build_tree_1] at hb
      split at hb
      · cases hb
      · rename_i maj hmc
        split at hb
        · injection hb with hb
          subst hb
          exact leaf_invariants _ _ hmc
        · split at hb
          · injection hb with hb
            subst hb
            exact leaf_invariants _ _ hmc
          · rename_i hfe
            exact absurd rfl hfe
  | succ n IH =>
      intro features examples t hlen hb hdom
      rw [build_tree_1] at hb
      split at hb
      · cases hb
      · rename_i maj hmc
        split at hb
        · injection hb with hb
          subst hb
          exact leaf_invariants _ _ hmc
        · split at hb
          · injection hb with hb
            subst hb
            exact leaf_invariants _ _ hmc
          · rename_i hfe
            split at hb
            · cases hb
            · rename_i dom remaining hpop
              split at hb
              · cases hb
              · rename_i ch hch
                injection hb with hb
                subst hb
                -- name the split feature
                obtain ⟨k, hkmem, hkcast, hkfst, hksub⟩ :=
                  popF_spec features (best_feature features examples)
                    dom remaining hpop
                have hlen1 : remaining.length + 1 = features.length :=
                  popF_length features (best_feature features examples)
                    dom remaining hpop
                have hknat : (best_feature features examples).toNat = k := by
                  rw [← hkcast]
                  exact Int.toNat_natCast k
                rw [hknat] at hch
                obtain ⟨hkeys, hmemch⟩ :=
                  build_children_spec dom examples k remaining ch hch
                have hexne : examples ≠ [] := majority_class_ne_nil hmc
                -- the recursive facts for every stored child
                have hchild : ∀ v c, (v, some c) ∈ ch →
                    childKeysObserved c (filter_examples examples k v) ∧
                    allNodesGood c (filter_examples examples k v) ∧
                    consumesFrom c (remaining.map Prod.fst) ∧
                    depth c ≤ remaining.length := by
                  intro v c hvc
                  obtain ⟨v2, c2, hpr, hbc⟩ := hmemch (v, some c) hvc
                  injection hpr with hv2 hc2
                  subst hv2
                  injection hc2 with hc2
                  subst hc2
                  apply IH remaining (filter_examples examples k v) c
                    (by omega) hbc
                  intro p hp e he
                  exact hdom p (hksub.mem hp) e (mem_filter_examples.mp he).1
                -- every child key is observed, every observed value is a key
                have hkeys_obs : ∀ x, x ∈ ch.map Prod.fst ↔
                    x ∈ examples.map (fun e => fval e k) := by
                  intro x
                  constructor
                  · intro hx
                    obtain ⟨pr, hpr, hx⟩ := List.mem_map.mp hx
                    obtain ⟨v2, c2, hpr2, hbc⟩ := hmemch pr hpr
                    subst hpr2
                    simp only at hx
                    subst hx
                    have hne := build_tree_1_ok_ne_nil hbc
                    obtain ⟨e, he⟩ := List.exists_mem_of_ne_nil _ hne
                    have := mem_filter_examples.mp he
                    exact List.mem_map.mpr ⟨e, this.1, this.2⟩
                  · intro hx
                    obtain ⟨e, he, hx⟩ := List.mem_map.mp hx
                    subst hx
                    rw [hkeys]
                    exact hdom (k, dom) hkmem e he
                have hdomne : dom ≠ [] := by
                  obtain ⟨e, he⟩ := List.exists_mem_of_ne_nil _ hexne
                  intro hnil
                  have := hdom (k, dom) hkmem e he
                  rw [hnil] at this
                  simp at this
                have hchne : ch ≠ [] := by
                  intro hnil
                  rw [hnil] at hkeys
                  exact hdomne hkeys.symm
                have hbfne : best_feature features examples ≠ -1 := by
                  rw [← hkcast]
                  omega
                refine ⟨?_, ?_, ?_, ?_⟩
                · rw [childKeysObserved]
                  refine ⟨fun _ => ?_, fun v c hvc => ?_⟩
                  · rw [hknat]
                    exact hkeys_obs
                  · rw [hknat]
                    exact (hchild v c hvc).1
                · rw [allNodesGood]
                  obtain ⟨hmem, hcount⟩ := majority_class_spec hmc
                  refine ⟨⟨fun h => absurd h hbfne, fun h => absurd h hchne⟩,
                    fun _ => ?_, hmem, hcount, fun v c hvc => ?_⟩
                  · rw [← hkcast]
                    exact Int.natCast_nonneg k
                  · rw [hknat]
                    exact (hchild v c hvc).2.1
                · rw [consumesFrom]
                  refine Or.inr ⟨k, ?_, hkcast, fun v c hvc => ?_⟩
                  · exact List.mem_map.mpr ⟨(k, dom), hkmem, rfl⟩
                  · rw [← hkfst]
                    exact (hchild v c hvc).2.2.1
                · rw [depth]
                  have := depthChildren_le
                    (fun v c hvc => (hchild v c hvc).2.2.2)
                  omega

/- ### Invariants of `build_tree` -/

theorem build_tree_invariants (e0 : Example α) (rest : List (Example α))
    (t : TreeNode α) (h : build_tree (e0 :: rest) = .ok (some t)) :
    childKeysObserved t (e0 :: rest) ∧ allNodesGood t (e0 :: rest) ∧
      consumesFrom t (List.range e0.attrs.length) ∧
      depth t ≤ e0.attrs.length := by
  rw [build_tree] at h
  split at h
  · cases h
  · rename_i t0 hb
    injection h with h
    injection h with h
    subst h
    have hinv := build_tree_1_invariants
      ((List.range e0.attrs.length).map (fun i =>
        (i, ((e0 :: rest).map (fun e => fval e i)).dedup))).length
      ((List.range e0.attrs.length).map (fun i =>
        (i, ((e0 :: rest).map (fun e => fval e i)).dedup)))
      (e0 :: rest) t0 (Nat.le_refl _) hb ?_
    · have hfst0 : ∀ (L : List Nat), (L.map (fun i =>
          (i, ((e0 :: rest).map (fun e => fval e i)).dedup))).map Prod.fst =
          L := by
        intro L
        induction L with
        | nil => rfl
        | cons a as ih => rw [List.map_cons, List.map_cons, ih]
      have hfst := hfst0 (List.range e0.attrs.length)
      have hlen : ((List.range e0.attrs.length).map (fun i =>
          (i, ((e0 :: rest).map (fun e => fval e i)).dedup))).length =
          e0.attrs.length := by
        simp
      rw [hfst, hlen] at hinv
      exact hinv
    · intro p hp e he
      obtain ⟨i, _, hpi⟩ := List.mem_map.mp hp
      subst hpi
      simp only
      rw [List.mem_dedup]
      exact List.mem_map.mpr ⟨e, he, rfl⟩

/-- Claim C1: for every internal node of a tree produced by `build_tree`,
the keys of its children mapping are exactly the distinct feature values
observed, for the node's split feature, among the examples that reached that
node (stated by the recursive predicate `childKeysObserved`, which relates
each node of the result to the example subset it was built from). -/
theorem buildTree_child_keys_observed (examples : List (Example α))
    (t : TreeNode α) (h : build_tree examples = .ok (some t)) :
    childKeysObserved t examples := by
  cases examples with
  | nil => rw [build_tree] at h; cases h
  | cons e0 rest => exact (build_tree_invariants e0 rest t h).1

/-- Claim C8: a tree produced by `build_tree` consumes one feature index per
level, drawn without repetition along every path from the root-level feature
set (`consumesFrom` removes the used index from the available keys for all
children), and consequently its depth is at most the number of features. -/
theorem buildTree_consumes_one_feature_per_level (e0 : Example α)
    (rest : List (Example α)) (t : TreeNode α)
    (h : build_tree (e0 :: rest) = .ok (some t)) :
    consumesFrom t (List.range e0.attrs.length) ∧
      depth t ≤ e0.attrs.length := by
  exact ⟨(build_tree_invariants e0 rest t h).2.2.1,
    (build_tree_invariants e0 rest t h).2.2.2⟩

/-- Claim C9: `build_tree` on an empty example table returns the null result
(Python `None`, i.e. `Except.ok none`) and raises no exception. -/
theorem buildTree_nil_returns_none :
    build_tree ([] : List (Example ℕ)) = .ok none := rfl

/-- Claim C10: every node of a tree returned by `build_tree` on a non-empty
table is well-formed: its split feature is `-1` exactly when its children
mapping is empty, an internal node's split feature is a non-negative index
with a non-empty children mapping, and its majority class is a label
occurring among the examples from which the node was built with occurrence
count at least that of every other label there (predicate `allNodesGood`). -/
theorem buildTree_nodes_well_formed (examples : List (Example α))
    (t : TreeNode α) (h : build_tree examples = .ok (some t)) :
    allNodesGood t examples := by
  cases examples with
  | nil => rw [build_tree] at h; cases h
  | cons e0 rest => exact (build_tree_invariants e0 rest t h).2.1

/- ### Concrete evaluations of the builder (witness material)

`build_tree` is noncomputable (its feature selection compares real split
entropies), so concrete runs are evaluated by lemmas: the entropy of a
single-example list is `0`, which settles the feature choice below. -/

theorem entropy_single (e : Example ℕ) : entropy [e] = 0 := by
  simp [entropy, Real.logb_one]

theorem split_entropy_pair01 : split_entropy 0 [(0, [10, 11])]
    [(⟨[10], 0⟩ : Example ℕ), ⟨[11], 1⟩] = 0 := by
  rw [split_entropy]
  norm_num [lookupDom, filter_examples, fval]
  rw [entropy_single, entropy_single]
  norm_num

theorem best_feature_pair01 : best_feature [(0, [10, 11])]
    [(⟨[10], 0⟩ : Example ℕ), ⟨[11], 1⟩] = 0 := by
  rw [best_feature]
  simp only [List.foldl_cons, List.foldl_nil]
  rw [split_entropy_pair01]
  norm_num

theorem build_leaf10 : build_tree_1 [(⟨[10], 0⟩ : Example ℕ)] [] =
    .ok (.mk (-1) [] 0) := by
  rw [build_tree_1]
  norm_num [majority_class, same_class]

theorem build_leaf11 : build_tree_1 [(⟨[11], 1⟩ : Example ℕ)] [] =
    .ok (.mk (-1) [] 1) := by
  rw [build_tree_1]
  norm_num [majority_class, same_class]

theorem build_children_pair01 :
    build_children [(⟨[10], 0⟩ : Example ℕ), ⟨[11], 1⟩] 0 [10, 11] [] =
      .ok [(10, some (.mk (-1) [] 0)), (11, some (.mk (-1) [] 1))] := by
  rw [build_children.eq_def]
  dsimp only
  rw [show filter_examples [(⟨[10], 0⟩ : Example ℕ), ⟨[11], 1⟩] 0 10 =
    [⟨[10], 0⟩] from by decide]
  rw [build_leaf10]
  rw [build_children.eq_def]
  dsimp only
  rw [show filter_examples [(⟨[10], 0⟩ : Example ℕ), ⟨[11], 1⟩] 0 11 =
    [⟨[11], 1⟩] from by decide]
  rw [build_leaf11]
  rw [build_children.eq_def]

theorem build_tree_1_pair01 :
    build_tree_1 [(⟨[10], 0⟩ : Example ℕ), ⟨[11], 1⟩] [(0, [10, 11])] =
      .ok (.mk 0 [(10, some (.mk (-1) [] 0)), (11, some (.mk (-1) [] 1))] 0) := by
  rw [build_tree_1, best_feature_pair01]
  norm_num [majority_class, same_class]
  rw [show popF [(0, [10, 11])] (0 : Int) = some ([10, 11], []) from by decide]
  dsimp only
  rw [build_children_pair01]

theorem build_tree_pair01 : build_tree [(⟨[10], 0⟩ : Example ℕ), ⟨[11], 1⟩] =
    .ok (some (.mk 0 [(10, some (.mk (-1) [] 0)),
      (11, some (.mk (-1) [] 1))] 0)) := by
  rw [build_tree]
  rw [show ((List.range (⟨[10], 0⟩ : Example ℕ).attrs.length).map (fun i =>
      (i, (([(⟨[10], 0⟩ : Example ℕ), ⟨[11], 1⟩]).map
        (fun e => fval e i)).dedup))) = [(0, [10, 11])] from by decide]
  rw [build_tree_1_pair01]

theorem build_tree_leaf34 : build_tree [(⟨[3, 4], 9⟩ : Example ℕ)] =
    .ok (some (.mk (-1) [] 9)) := by
  rw [build_tree, build_tree_1]
  norm_num [majority_class, same_class]

theorem build_tree_leaf5 : build_tree [(⟨[5], 3⟩ : Example ℕ)] =
    .ok (some (.mk (-1) [] 3)) := by
  rw [build_tree, build_tree_1]
  norm_num [majority_class, same_class]

/-- Witness for claim C1: a concrete two-example table, its concretely
evaluated tree, and the claim's conclusion at that input. -/
theorem buildTree_child_keys_observed_witness :
    build_tree [(⟨[10], 0⟩ : Example ℕ), ⟨[11], 1⟩] =
      .ok (some (.mk 0 [(10, some (.mk (-1) [] 0)),
        (11, some (.mk (-1) [] 1))] 0)) ∧
    childKeysObserved
      (.mk 0 [(10, some (.mk (-1) [] 0)), (11, some (.mk (-1) [] 1))] 0 :
        TreeNode ℕ)
      [⟨[10], 0⟩, ⟨[11], 1⟩] :=
  ⟨build_tree_pair01,
    buildTree_child_keys_observed _ _ build_tree_pair01⟩

/-- Witness for claim C8 at a concrete one-example, two-feature table. -/
theorem buildTree_consumes_one_feature_per_level_witness :
    build_tree [(⟨[3, 4], 9⟩ : Example ℕ)] = .ok (some (.mk (-1) [] 9)) ∧
    (consumesFrom (.mk (-1) [] 9 : TreeNode ℕ) (List.range 2) ∧
      depth (.mk (-1) [] 9 : TreeNode ℕ) ≤ 2) :=
  ⟨build_tree_leaf34,
    buildTree_consumes_one_feature_per_level _ _ _ build_tree_leaf34⟩

/-- Witness for claim C10 at a concrete one-example table. -/
theorem buildTree_nodes_well_formed_witness :
    build_tree [(⟨[5], 3⟩ : Example ℕ)] = .ok (some (.mk (-1) [] 3)) ∧
    allNodesGood (.mk (-1) [] 3 : TreeNode ℕ) [⟨[5], 3⟩] :=
  ⟨build_tree_leaf5, buildTree_nodes_well_formed _ _ build_tree_leaf5⟩

/- ### Claim C2: the builder does recurse into empty partitions (code bug)

The source's header comment promises that an empty split partition yields a
`None` child classified by the parent's majority class, and `classify` and
`print_tree` both contain `if child_node:` handling for such `None` children.
But `build_tree_1` stores `build_tree_1(split_examples, remaining_features)`
unconditionally, and on an empty partition that recursive call evaluates
`majority_class([])`, whose `max()` raises `ValueError`.  The table below is
a concrete non-empty input reaching that crash: both features share the
partition {rows 1-2} / {row 3}; the root splits on feature 0, and inside the
`feature 0 = 0` branch the value `1` of feature 1 (inherited from the
root-level domain) has an empty subset. -/

theorem entropy_nil : entropy ([] : List (Example ℕ)) = 0 := by
  simp [entropy]

theorem logb_two_half : Real.logb 2 ((1 : ℝ)/2) = -1 := by
  rw [one_div, Real.logb_inv, Real.logb_self_eq_one (by norm_num : (1:ℝ) < 2)]

theorem logb_two_quarter : Real.logb 2 ((1 : ℝ)/4) = -2 := by
  rw [one_div, Real.logb_inv]
  rw [show (4 : ℝ) = 2 * 2 from by norm_num]
  rw [Real.logb_mul (by norm_num) (by norm_num),
    Real.logb_self_eq_one (by norm_num : (1:ℝ) < 2)]
  norm_num

theorem entropy_c2pair :
    entropy [(⟨[0, 0], 1⟩ : Example ℕ), ⟨[0, 0], 0⟩] = 1 := by
  rw [entropy]
  norm_num
  rw [logb_two_half]
  norm_num

theorem se_c2_root0 : split_entropy 0 [(0, [0, 1]), (1, [0, 1])]
    [(⟨[0, 0], 1⟩ : Example ℕ), ⟨[0, 0], 0⟩, ⟨[1, 1], 1⟩] =
    2/3 * entropy [(⟨[0, 0], 1⟩ : Example ℕ), ⟨[0, 0], 0⟩] := by
  rw [split_entropy]
  norm_num [lookupDom, filter_examples, fval]
  rw [entropy_single]

theorem se_c2_root1 : split_entropy 1 [(0, [0, 1]), (1, [0, 1])]
    [(⟨[0, 0], 1⟩ : Example ℕ), ⟨[0, 0], 0⟩, ⟨[1, 1], 1⟩] =
    2/3 * entropy [(⟨[0, 0], 1⟩ : Example ℕ), ⟨[0, 0], 0⟩] := by
  rw [split_entropy]
  norm_num [lookupDom, filter_examples, fval]
  rw [entropy_single]

theorem se_c2_child : split_entropy 1 [(1, [0, 1])]
    [(⟨[0, 0], 1⟩ : Example ℕ), ⟨[0, 0], 0⟩] = 1 := by
  rw [split_entropy]
  norm_num [lookupDom, filter_examples, fval]
  rw [entropy_c2pair]

theorem bf_c2_root : best_feature [(0, [0, 1]), (1, [0, 1])]
    [(⟨[0, 0], 1⟩ : Example ℕ), ⟨[0, 0], 0⟩, ⟨[1, 1], 1⟩] = 0 := by
  rw [best_feature]
  simp only [List.foldl_cons, List.foldl_nil]
  rw [se_c2_root0, se_c2_root1, entropy_c2pair]
  norm_num

theorem bf_c2_child : best_feature [(1, [0, 1])]
    [(⟨[0, 0], 1⟩ : Example ℕ), ⟨[0, 0], 0⟩] = 1 := by
  rw [best_feature]
  simp only [List.foldl_cons, List.foldl_nil]
  rw [se_c2_child]
  norm_num

theorem build_tree_1_nil_error (r : List (ℕ × List ℕ)) :
    build_tree_1 ([] : List (Example ℕ)) r = .error .valueError := by
  rw [build_tree_1]
  simp [majority_class]

theorem leaf_c2pair : build_tree_1 [(⟨[0, 0], 1⟩ : Example ℕ), ⟨[0, 0], 0⟩] [] =
    .ok (.mk (-1) [] 1) := by
  rw [build_tree_1]
  norm_num [majority_class, same_class]

theorem child_c2_error : build_tree_1 [(⟨[0, 0], 1⟩ : Example ℕ), ⟨[0, 0], 0⟩]
    [(1, [0, 1])] = .error .valueError := by
  rw [build_tree_1, bf_c2_child]
  norm_num [majority_class, same_class]
  rw [show popF [(1, [0, 1])] (1 : Int) = some ([0, 1], []) from by decide]
  dsimp only
  rw [build_children.eq_def]
  dsimp only
  rw [show filter_examples [(⟨[0, 0], 1⟩ : Example ℕ), ⟨[0, 0], 0⟩] 1 0 =
    [(⟨[0, 0], 1⟩ : Example ℕ), ⟨[0, 0], 0⟩] from by decide]
  rw [leaf_c2pair]
  rw [build_children.eq_def]
  dsimp only
  rw [show filter_examples [(⟨[0, 0], 1⟩ : Example ℕ), ⟨[0, 0], 0⟩] 1 1 =
    [] from by decide]
  rw [build_tree_1_nil_error]

theorem root_c2_error : build_tree_1
    [(⟨[0, 0], 1⟩ : Example ℕ), ⟨[0, 0], 0⟩, ⟨[1, 1], 1⟩]
    [(0, [0, 1]), (1, [0, 1])] = .error .valueError := by
  rw [build_tree_1, bf_c2_root]
  norm_num [majority_class, same_class]
  rw [show popF [(0, [0, 1]), (1, [0, 1])] (0 : Int) =
    some ([0, 1], [(1, [0, 1])]) from by decide]
  dsimp only
  rw [build_children.eq_def]
  dsimp only
  rw [show filter_examples
    [(⟨[0, 0], 1⟩ : Example ℕ), ⟨[0, 0], 0⟩, ⟨[1, 1], 1⟩] 0 0 =
    [(⟨[0, 0], 1⟩ : Example ℕ), ⟨[0, 0], 0⟩] from by decide]
  rw [child_c2_error]
  rfl

/-- Claim C2 is refuted by the code (code bug evidence): on this non-empty
three-row table the recursive builder IS invoked on an empty example list
and the whole build raises Python's `ValueError` (from `max()` on an empty
sequence in `majority_class`), instead of storing the empty/null marker for
the empty partition as the claim (and the source's own header comment and
the `if child_node:` handling in `classify`/`print_tree`) describe. -/
theorem buildTree_raises_on_empty_partition : build_tree
    [(⟨[0, 0], 1⟩ : Example ℕ), ⟨[0, 0], 0⟩, ⟨[1, 1], 1⟩] =
    .error .valueError := by
  rw [build_tree]
  rw [show ((List.range (⟨[0, 0], 1⟩ : Example ℕ).attrs.length).map (fun i =>
      (i, (([(⟨[0, 0], 1⟩ : Example ℕ), ⟨[0, 0], 0⟩, ⟨[1, 1], 1⟩]).map
        (fun e => fval e i)).dedup))) = [(0, [0, 1]), (1, [0, 1])] from by decide]
  rw [root_c2_error]

/- ### Claim C3: `best_feature` can return the sentinel `-1` (code bug)

The source initialises the best entropy to the sentinel `2.0` with the
comment "max entropy = 1.0", which is false for more than two classes: with
four equally frequent class labels the (only) candidate split has entropy
exactly `2`, the strict comparison `se < 2.0` fails, and `best_feature`
returns `-1` instead of a candidate feature index (after which
`build_tree_1` would raise `KeyError` on `remaining_features.pop(-1)`). -/

theorem entropy_c3 : entropy
    [(⟨[7], 0⟩ : Example ℕ), ⟨[7], 1⟩, ⟨[7], 2⟩, ⟨[7], 3⟩] = 2 := by
  rw [entropy]
  norm_num
  rw [logb_two_quarter]
  norm_num

theorem se_c3 : split_entropy 0 [(0, [7])]
    [(⟨[7], 0⟩ : Example ℕ), ⟨[7], 1⟩, ⟨[7], 2⟩, ⟨[7], 3⟩] = 2 := by
  rw [split_entropy]
  norm_num [lookupDom, filter_examples, fval]
  rw [entropy_c3]

/-- Claim C3 is refuted by the code (code bug evidence): for the non-empty
candidate map `{0 ↦ {7}}` over this non-empty four-class table,
`best_feature` returns `-1` — which is not a candidate index at all, hence
not a candidate of minimal split entropy (the unique candidate `0` has split
entropy `2`, blocked by the sentinel initialisation `2.0`). -/
theorem best_feature_returns_sentinel : best_feature [(0, [7])]
    [(⟨[7], 0⟩ : Example ℕ), ⟨[7], 1⟩, ⟨[7], 2⟩, ⟨[7], 3⟩] = -1 := by
  rw [best_feature]
  simp only [List.foldl_cons, List.foldl_nil]
  rw [se_c3]
  norm_num

/- ### Claims C4 and C5: behaviour of `classify` -/

theorem classifyLookup_lookup (ch : List (α × Option (TreeNode α))) (key maj : α)
    (inst : List α) :
    classifyLookup ch key maj inst =
      match lookupChild ch key with
      | none => .error .keyError
      | some none => .ok maj
      | some (some c) => classify c inst := by
  induction ch with
  | nil => rfl
  | cons p rest ih =>
      obtain ⟨v, c⟩ := p
      rw [classifyLookup.eq_def, lookupChild]
      dsimp only
      by_cases hv : v = key
      · rw [if_pos hv, if_pos hv]
        cases c with
        | none => rfl
        | some child => rfl
      · rw [if_neg hv, if_neg hv, ih]

theorem hitsMissingChildren_lookup (ch : List (α × Option (TreeNode α)))
    (key : α) (inst : List α) :
    hitsMissingChildren ch key inst =
      match lookupChild ch key with
      | none => true
      | some none => false
      | some (some c) => hitsMissingKey c inst := by
  induction ch with
  | nil => rfl
  | cons p rest ih =>
      obtain ⟨v, c⟩ := p
      rw [hitsMissingChildren.eq_def, lookupChild]
      dsimp only
      by_cases hv : v = key
      · rw [if_pos hv, if_pos hv]
        cases c with
        | none => rfl
        | some child => rfl
      · rw [if_neg hv, if_neg hv, ih]

theorem lookupChild_mem {ch : List (α × Option (TreeNode α))} {key : α}
    {oc : Option (TreeNode α)} (h : lookupChild ch key = some oc) :
    (key, oc) ∈ ch := by
  induction ch with
  | nil => cases h
  | cons p rest ih =>
      obtain ⟨v, c⟩ := p
      rw [lookupChild] at h
      by_cases hv : v = key
      · rw [if_pos hv] at h
        injection h with h
        subst hv
        subst h
        exact List.mem_cons_self _ _
      · rw [if_neg hv] at h
        exact List.mem_cons_of_mem _ (ih h)

theorem childrenValid_mem {ch : List (α × Option (TreeNode α))} {n : Nat}
    {v : α} {c : TreeNode α} (hch : childrenValid ch n = true)
    (hm : (v, some c) ∈ ch) : splitsValid c n = true := by
  induction ch with
  | nil => cases hm
  | cons p rest ih =>
      obtain ⟨v0, oc0⟩ := p
      rcases List.mem_cons.mp hm with he | hm'
      · injection he with h1 h2
        subst h1
        cases oc0 with
        | none => cases h2
        | some c0 =>
            injection h2 with h2
            subst h2
            rw [childrenValid] at hch
            simp only [Bool.and_eq_true] at hch
            exact hch.1
      · cases oc0 with
        | none =>
            rw [childrenValid] at hch
            exact ih hch hm'
        | some c0 =>
            rw [childrenValid] at hch
            simp only [Bool.and_eq_true] at hch
            exact ih hch.2 hm'

theorem classify_missing_key (k : Nat) :
    ∀ (t : TreeNode α) (inst : List α), sizeOf t ≤ k →
      splitsValid t inst.length = true →
      (hitsMissingKey t inst = true → classify t inst = .error .keyError) ∧
      (hitsMissingKey t inst = false → ∃ lab, classify t inst = .ok lab) := by
  induction k with
  | zero =>
      intro t inst hsz hval
      obtain ⟨sf, ch, maj⟩ := t
      rw [TreeNode.mk.sizeOf_spec] at hsz
      omega
  | succ k ih =>
      intro t inst hsz hval
      obtain ⟨sf, ch, maj⟩ := t
      rw [splitsValid] at hval
      simp only [Bool.and_eq_true] at hval
      obtain ⟨hval1, hval2⟩ := hval
      by_cases hsf : sf = -1
      · rw [classify, hitsMissingKey, if_pos hsf, if_pos hsf]
        exact ⟨fun h => (nomatch h), fun _ => ⟨maj, rfl⟩⟩
      · rw [classify, hitsMissingKey, if_neg hsf, if_neg hsf]
        have hrange : 0 ≤ sf ∧ sf.toNat < inst.length := by
          simp only [Bool.or_eq_true, Bool.and_eq_true] at hval1
          rcases hval1 with h | h
          · exact absurd (by simpa using h) hsf
          · exact ⟨of_decide_eq_true h.1, of_decide_eq_true h.2⟩
        obtain ⟨key, hkey⟩ : ∃ key, pyIdx inst sf = some key := by
          rw [pyIdx, if_pos hrange.1]
          cases hg : inst.get? sf.toNat with
          | none =>
              have := List.get?_eq_none.mp hg
              omega
          | some a => exact ⟨a, rfl⟩
        rw [hkey]
        dsimp only
        rw [classifyLookup_lookup, hitsMissingChildren_lookup]
        cases hlk : lookupChild ch key with
        | none => exact ⟨fun _ => rfl, fun h => (nomatch h)⟩
        | some oc =>
            cases oc with
            | none => exact ⟨fun h => (nomatch h), fun _ => ⟨maj, rfl⟩⟩
            | some c =>
                have hmem := lookupChild_mem hlk
                have hszc : sizeOf c ≤ k := by
                  have := sizeOf_child_lt sf ch maj key c hmem
                  omega
                exact ih c inst hszc (childrenValid_mem hval2 hmem)

/-- Claim C4: for a tree whose internal split features are valid indices
into the instance (the spec's uniform-arity data model), `classify` fails
with a LookupError (the `KeyError` of the children-dict access) exactly when
the traversal reaches an internal node whose children mapping has no key
equal to the instance's value for that node's split feature; in every other
case it returns a label without raising. -/
theorem classify_error_iff_missing_key (t : TreeNode α) (inst : List α)
    (hvalid : splitsValid t inst.length = true) :
    (classify t inst = .error .keyError ↔ hitsMissingKey t inst = true) ∧
    ((∃ lab, classify t inst = .ok lab) ↔ hitsMissingKey t inst = false) := by
  have h := classify_missing_key (sizeOf t) t inst (Nat.le_refl _) hvalid
  cases hh : hitsMissingKey t inst
  · obtain ⟨lab, hl⟩ := h.2 hh
    refine ⟨⟨fun hc => ?_, fun hc => (nomatch hc)⟩,
      ⟨fun _ => rfl, fun _ => ⟨lab, hl⟩⟩⟩
    rw [hl] at hc
    cases hc
  · have hc := h.1 hh
    refine ⟨⟨fun _ => rfl, fun _ => hc⟩,
      ⟨fun hl => ?_, fun hl => (nomatch hl)⟩⟩
    obtain ⟨lab, hl⟩ := hl
    rw [hc] at hl
    cases hl

/-- Witness for claim C4: a concrete internal node and instance whose value
is absent from the children mapping; `classify` raises and the
characterisation applies. -/
theorem classify_error_iff_missing_key_witness :
    splitsValid (.mk 0 [(5, some (.mk (-1) [] 9))] 7 : TreeNode ℕ)
      (List.length [6]) = true ∧
    ((classify (.mk 0 [(5, some (.mk (-1) [] 9))] 7 : TreeNode ℕ) [6] =
        .error .keyError ↔
      hitsMissingKey (.mk 0 [(5, some (.mk (-1) [] 9))] 7 : TreeNode ℕ) [6] =
        true) ∧
    ((∃ lab, classify (.mk 0 [(5, some (.mk (-1) [] 9))] 7 : TreeNode ℕ) [6] =
        .ok lab) ↔
      hitsMissingKey (.mk 0 [(5, some (.mk (-1) [] 9))] 7 : TreeNode ℕ) [6] =
        false)) :=
  ⟨by decide, classify_error_iff_missing_key _ _ (by decide)⟩

/-- Claim C5: at an internal node, when the instance's value for the split
feature is a key of the children mapping bound to the empty/null marker,
`classify` returns exactly that node's majority class (no recursion); when
it is bound to a child node, `classify` recurses into that child. -/
theorem classify_empty_marker_majority (sf : Int)
    (ch : List (α × Option (TreeNode α))) (maj : α) (inst : List α) (key : α)
    (hsf : sf ≠ -1) (hidx : pyIdx inst sf = some key) :
    (lookupChild ch key = some none →
      classify (.mk sf ch maj) inst = .ok maj) ∧
    (∀ c, lookupChild ch key = some (some c) →
      classify (.mk sf ch maj) inst = classify c inst) := by
  rw [classify, if_neg hsf, hidx]
  dsimp only
  rw [classifyLookup_lookup]
  constructor
  · intro h
    rw [h]
  · intro c h
    rw [h]

/-- Witness for claim C5: a node with one empty-marker child and one real
child; the instance value `4` yields the node's majority class `3`, the
instance value `6` recurses into the stored leaf. -/
theorem classify_empty_marker_majority_witness :
    ((0 : Int) ≠ -1 ∧
      pyIdx [4] (0 : Int) = some 4 ∧
      lookupChild [(4, (none : Option (TreeNode ℕ))),
        (6, some (.mk (-1) [] 8))] 4 = some none ∧
      classify (.mk 0 [(4, none), (6, some (.mk (-1) [] 8))] 3 : TreeNode ℕ)
        [4] = .ok 3) ∧
    (pyIdx [6] (0 : Int) = some 6 ∧
      lookupChild [(4, (none : Option (TreeNode ℕ))),
        (6, some (.mk (-1) [] 8))] 6 = some (some (.mk (-1) [] 8)) ∧
      classify (.mk 0 [(4, none), (6, some (.mk (-1) [] 8))] 3 : TreeNode ℕ)
        [6] = classify (.mk (-1) [] 8 : TreeNode ℕ) [6]) :=
  ⟨⟨by decide, rfl, rfl,
      (classify_empty_marker_majority 0 [(4, none), (6, some (.mk (-1) [] 8))]
        3 [4] 4 (by decide) rfl).1 rfl⟩,
    ⟨rfl, rfl,
      (classify_empty_marker_majority 0 [(4, none), (6, some (.mk (-1) [] 8))]
        3 [6] 6 (by decide) rfl).2 _ rfl⟩⟩

/- ### Claims C6 and C7: counting infrastructure -/

theorem sum_map_nodup {M : Type} [AddCommMonoid M] (m : List α) (f : α → M)
    (h : m.Nodup) : (m.map f).sum = ∑ c in m.toFinset, f c := by
  induction m with
  | nil => simp
  | cons a as ih =>
      obtain ⟨ha, has⟩ := List.nodup_cons.mp h
      simp only [List.map_cons, List.sum_cons, List.toFinset_cons]
      rw [Finset.sum_insert (by simpa [List.mem_toFinset] using ha), ih has]

theorem toFinset_dedup_eq (l : List α) : l.dedup.toFinset = l.toFinset := by
  ext x
  simp [List.mem_dedup]

theorem count_map_label (l : List (Example α)) (c : α) :
    (l.map Example.label).count c = l.countP (fun e => decide (e.label = c)) := by
  induction l with
  | nil => rfl
  | cons e tl ih =>
      simp only [List.map_cons, List.count_cons, List.countP_cons, ih]
      by_cases he : e.label = c
      · simp [he]
      · simp [he]

theorem sum_countP_eq (g : Example α → α) (q : Example α → Bool) :
    ∀ (ex : List (Example α)) (s : Finset α), (∀ e ∈ ex, g e ∈ s) →
      (∑ v in s, ex.countP (fun e => decide (g e = v) && q e)) = ex.countP q := by
  intro ex
  induction ex with
  | nil => intro s hcov; simp
  | cons e tl ih =>
      intro s hcov
      have hcov' : ∀ x ∈ tl, g x ∈ s :=
        fun x hx => hcov x (List.mem_cons_of_mem _ hx)
      simp only [List.countP_cons]
      rw [Finset.sum_add_distrib, ih s hcov']
      congr 1
      by_cases hq : q e = true
      · rw [hq, if_pos rfl]
        simp only [Bool.and_true, decide_eq_true_eq]
        rw [Finset.sum_ite_eq s (g e) (fun _ => 1)]
        exact if_pos (hcov e (List.mem_cons_self _ _))
      · have hq' : q e = false := by
          cases hqe : q e
          · rfl
          · exact absurd hqe hq
        rw [hq', if_neg (by simp)]
        refine Finset.sum_eq_zero fun v _ => ?_
        rw [if_neg (by simp [hq'])]

theorem sum_filter_length (ex : List (Example α)) (i : Nat) :
    (∑ v in (ex.map (fun e => fval e i)).toFinset,
      (filter_examples ex i v).length) = ex.length := by
  have h := sum_countP_eq (fun e => fval e i) (fun _ => true) ex
    ((ex.map (fun e => fval e i)).toFinset)
    (fun e he => List.mem_toFinset.mpr (List.mem_map.mpr ⟨e, he, rfl⟩))
  calc (∑ v in (ex.map (fun e => fval e i)).toFinset,
        (filter_examples ex i v).length)
      = ∑ v in (ex.map (fun e => fval e i)).toFinset,
        ex.countP (fun e => decide (fval e i = v) && true) := by
        refine Finset.sum_congr rfl fun v _ => ?_
        rw [filter_examples, ← List.countP_eq_length_filter]
        simp
    _ = ex.countP (fun _ => true) := h
    _ = ex.length := congrFun List.countP_true ex

theorem sum_label_count (ex : List (Example α)) :
    (∑ c in (ex.map Example.label).toFinset,
      (ex.map Example.label).count c) = ex.length := by
  have h := sum_countP_eq Example.label (fun _ => true) ex
    ((ex.map Example.label).toFinset)
    (fun e he => List.mem_toFinset.mpr (List.mem_map.mpr ⟨e, he, rfl⟩))
  calc (∑ c in (ex.map Example.label).toFinset,
        (ex.map Example.label).count c)
      = ∑ c in (ex.map Example.label).toFinset,
        ex.countP (fun e => decide (e.label = c) && true) := by
        refine Finset.sum_congr rfl fun c _ => ?_
        rw [count_map_label]
        simp
    _ = ex.countP (fun _ => true) := h
    _ = ex.length := congrFun List.countP_true ex

theorem sum_filter_label_count (ex : List (Example α)) (i : Nat) (c : α) :
    (∑ v in (ex.map (fun e => fval e i)).toFinset,
      ((filter_examples ex i v).map Example.label).count c) =
      (ex.map Example.label).count c := by
  have h := sum_countP_eq (fun e => fval e i)
    (fun e => decide (e.label = c)) ex
    ((ex.map (fun e => fval e i)).toFinset)
    (fun e he => List.mem_toFinset.mpr (List.mem_map.mpr ⟨e, he, rfl⟩))
  calc (∑ v in (ex.map (fun e => fval e i)).toFinset,
        ((filter_examples ex i v).map Example.label).count c)
      = ∑ v in (ex.map (fun e => fval e i)).toFinset,
        ex.countP (fun e => decide (fval e i = v) && decide (e.label = c)) := by
        refine Finset.sum_congr rfl fun v _ => ?_
        rw [count_map_label, filter_examples, List.countP_filter]
        refine List.countP_congr fun e _ => ?_
        simp [Bool.and_comm]
    _ = ex.countP (fun e => decide (e.label = c)) := h
    _ = (ex.map Example.label).count c := (count_map_label ex c).symm

theorem neg_mul_logb (p : ℝ) :
    -p * Real.logb 2 p = Real.negMulLog p / Real.log 2 := by
  rw [← Real.log_div_log]
  simp only [Real.negMulLog]
  ring

theorem sum_dedup_label_counts (ex : List (Example α)) :
    ((ex.map Example.label).dedup.map
      (fun c => (ex.map Example.label).count c)).sum = ex.length := by
  rw [sum_map_nodup _ _ (List.nodup_dedup _), toFinset_dedup_eq]
  exact sum_label_count ex

theorem entropy_eq_nent (ex : List (Example α)) :
    entropy ex = nent ex / Real.log 2 := by
  rw [entropy, nent]
  rw [List.map_map]
  rw [sum_map_nodup _ _ (List.nodup_dedup _), toFinset_dedup_eq]
  rw [Finset.sum_div]
  refine Finset.sum_congr rfl fun c hc => ?_
  have hcpos : 0 < (ex.map Example.label).count c :=
    List.count_pos_iff_mem.mpr (List.mem_toFinset.mp hc)
  simp only [Function.comp]
  rw [if_pos hcpos, sum_dedup_label_counts ex, neg_mul_logb]

theorem nent_nonneg (ex : List (Example α)) : 0 ≤ nent ex := by
  refine Finset.sum_nonneg fun c hc => ?_
  have hcmem := List.mem_toFinset.mp hc
  have hlpos : 0 < ex.length := by
    have := List.length_pos.mpr (List.ne_nil_of_mem hcmem)
    rw [List.length_map] at this
    exact this
  refine Real.negMulLog_nonneg (by positivity) ?_
  rw [div_le_one (by positivity)]
  have := List.count_le_length c (ex.map Example.label)
  rw [List.length_map] at this
  exact_mod_cast this

theorem entropy_nonneg (ex : List (Example α)) : 0 ≤ entropy ex := by
  rw [entropy_eq_nent]
  have h2 : 0 < Real.log 2 := Real.log_pos (by norm_num)
  exact div_nonneg (nent_nonneg ex) (le_of_lt h2)

/-- Concave Jensen step: the expected natural-log entropy of the partition of
`ex` by the value of feature `i` is at most the natural-log entropy of `ex`
(summed over the observed values of the feature). -/
theorem sum_weighted_nent_le (ex : List (Example α)) (i : Nat) :
    (∑ v in (ex.map (fun e => fval e i)).toFinset,
      ((filter_examples ex i v).length : ℝ) / (ex.length : ℝ) *
        nent (filter_examples ex i v)) ≤ nent ex := by
  by_cases hne : ex = []
  · subst hne
    simp [nent]
  have hN : 0 < ex.length := List.length_pos.mpr hne
  have hNne : ((ex.length : ℝ)) ≠ 0 := by positivity
  -- each observed value has a non-empty subset
  have hNv : ∀ v ∈ (ex.map (fun e => fval e i)).toFinset,
      0 < (filter_examples ex i v).length := by
    intro v hv
    obtain ⟨e, he, hfe⟩ := List.mem_map.mp (List.mem_toFinset.mp hv)
    exact List.length_pos.mpr
      (List.ne_nil_of_mem (mem_filter_examples.mpr ⟨he, hfe⟩))
  -- rewrite each subset entropy as a sum over the labels of `ex`
  have hnentS : ∀ v ∈ (ex.map (fun e => fval e i)).toFinset,
      nent (filter_examples ex i v) =
      ∑ c in (ex.map Example.label).toFinset,
        Real.negMulLog
          ((((filter_examples ex i v).map Example.label).count c : ℝ) /
            ((filter_examples ex i v).length : ℝ)) := by
    intro v _
    rw [nent]
    refine Finset.sum_subset ?_ ?_
    · intro c hcm
      obtain ⟨e, he, hl⟩ := List.mem_map.mp (List.mem_toFinset.mp hcm)
      exact List.mem_toFinset.mpr
        (List.mem_map.mpr ⟨e, (mem_filter_examples.mp he).1, hl⟩)
    · intro c _ hcnot
      have hc0 : ((filter_examples ex i v).map Example.label).count c = 0 :=
        List.count_eq_zero_of_not_mem
          (fun hm => hcnot (List.mem_toFinset.mpr hm))
      rw [hc0]
      simp
  calc (∑ v in (ex.map (fun e => fval e i)).toFinset,
        ((filter_examples ex i v).length : ℝ) / (ex.length : ℝ) *
          nent (filter_examples ex i v))
      = ∑ c in (ex.map Example.label).toFinset,
        ∑ v in (ex.map (fun e => fval e i)).toFinset,
          ((filter_examples ex i v).length : ℝ) / (ex.length : ℝ) *
            Real.negMulLog
              ((((filter_examples ex i v).map Example.label).count c : ℝ) /
                ((filter_examples ex i v).length : ℝ)) := by
        rw [← Finset.sum_comm]
        refine Finset.sum_congr rfl fun v hv => ?_
        rw [hnentS v hv, Finset.mul_sum]
    _ ≤ ∑ c in (ex.map Example.label).toFinset,
        Real.negMulLog (((ex.map Example.label).count c : ℝ) /
          (ex.length : ℝ)) := by
        refine Finset.sum_le_sum fun c _ => ?_
        have h0 : ∀ v ∈ (ex.map (fun e => fval e i)).toFinset,
            0 ≤ ((filter_examples ex i v).length : ℝ) / (ex.length : ℝ) :=
          fun v _ => by positivity
        have h1 : (∑ v in (ex.map (fun e => fval e i)).toFinset,
            ((filter_examples ex i v).length : ℝ) / (ex.length : ℝ)) = 1 := by
          rw [← Finset.sum_div]
          rw [← Nat.cast_sum]
          rw [sum_filter_length ex i]
          exact div_self hNne
        have hmem : ∀ v ∈ (ex.map (fun e => fval e i)).toFinset,
            ((((filter_examples ex i v).map Example.label).count c : ℝ) /
              ((filter_examples ex i v).length : ℝ)) ∈ Set.Ici (0 : ℝ) :=
          fun v _ => Set.mem_Ici.mpr (by positivity)
        have hjen := Real.concaveOn_negMulLog.le_map_sum h0 h1 hmem
        simp only [smul_eq_mul] at hjen
        refine le_trans hjen ?_
        have hsum : (∑ v in (ex.map (fun e => fval e i)).toFinset,
            ((filter_examples ex i v).length : ℝ) / (ex.length : ℝ) *
              ((((filter_examples ex i v).map Example.label).count c : ℝ) /
                ((filter_examples ex i v).length : ℝ))) =
            ((ex.map Example.label).count c : ℝ) / (ex.length : ℝ) := by
          have hterm : ∀ v ∈ (ex.map (fun e => fval e i)).toFinset,
              ((filter_examples ex i v).length : ℝ) / (ex.length : ℝ) *
                ((((filter_examples ex i v).map Example.label).count c : ℝ) /
                  ((filter_examples ex i v).length : ℝ)) =
              (((filter_examples ex i v).map Example.label).count c : ℝ) /
                (ex.length : ℝ) := by
            intro v hv
            have hv0 : ((filter_examples ex i v).length : ℝ) ≠ 0 := by
              have := hNv v hv
              positivity
            field_simp
            ring
          rw [Finset.sum_congr rfl hterm]
          rw [← Finset.sum_div]
          rw [← Nat.cast_sum]
          rw [sum_filter_label_count ex i c]
        rw [hsum]
    _ = nent ex := by rw [nent]

/-- Claim C7: for a non-empty example list and any candidate feature `f` of
the feature-domain map (whose domain, modelling a Python set, has no
duplicate values), the expected post-split entropy is at most the entropy of
the whole list — information gain is non-negative. -/
theorem split_entropy_le_entropy (f : Nat) (features : List (Nat × List α))
    (examples : List (Example α)) (dom : List α) (hne : examples ≠ [])
    (hdom : lookupDom features f = some dom) (hnd : dom.Nodup) :
    split_entropy f features examples ≤ entropy examples := by
  rw [split_entropy, hdom]
  simp only [Option.getD_some]
  rw [sum_map_nodup dom _ hnd]
  have hlog : (0:ℝ) < Real.log 2 := Real.log_pos (by norm_num)
  rw [entropy_eq_nent examples]
  have hterm : ∀ v ∈ dom.toFinset,
      ((filter_examples examples f v).length : ℝ) / (examples.length : ℝ) *
        entropy (filter_examples examples f v) =
      (((filter_examples examples f v).length : ℝ) / (examples.length : ℝ) *
        nent (filter_examples examples f v)) / Real.log 2 := by
    intro v _
    rw [entropy_eq_nent]
    ring
  rw [Finset.sum_congr rfl hterm, ← Finset.sum_div]
  gcongr
  have hnn : ∀ v,
      0 ≤ ((filter_examples examples f v).length : ℝ) / (examples.length : ℝ) *
        nent (filter_examples examples f v) :=
    fun v => mul_nonneg (by positivity) (nent_nonneg _)
  calc (∑ v in dom.toFinset,
        ((filter_examples examples f v).length : ℝ) / (examples.length : ℝ) *
          nent (filter_examples examples f v))
      = ∑ v in dom.toFinset ∩ (examples.map (fun e => fval e f)).toFinset,
        ((filter_examples examples f v).length : ℝ) / (examples.length : ℝ) *
          nent (filter_examples examples f v) := by
        refine (Finset.sum_subset (Finset.inter_subset_left) ?_).symm
        intro v _ hvnot
        have hvobs : v ∉ (examples.map (fun e => fval e f)).toFinset := by
          intro hv
          exact hvnot (Finset.mem_inter.mpr ⟨by assumption, hv⟩)
        have hfil : filter_examples examples f v = [] := by
          cases hfe : filter_examples examples f v with
          | nil => rfl
          | cons e tl =>
              exfalso
              have he : e ∈ filter_examples examples f v := by
                rw [hfe]
                exact List.mem_cons_self _ _
              obtain ⟨he2, hv2⟩ := mem_filter_examples.mp he
              exact hvobs (List.mem_toFinset.mpr
                (List.mem_map.mpr ⟨e, he2, hv2⟩))
        rw [hfil]
        simp [nent]
    _ ≤ ∑ v in (examples.map (fun e => fval e f)).toFinset,
        ((filter_examples examples f v).length : ℝ) / (examples.length : ℝ) *
          nent (filter_examples examples f v) := by
        refine Finset.sum_le_sum_of_subset_of_nonneg
          (Finset.inter_subset_right) ?_
        intro v _ _
        exact hnn v
    _ ≤ nent examples := sum_weighted_nent_le examples f

/-- Witness for claim C7 at a concrete two-example table with one feature. -/
theorem split_entropy_le_entropy_witness :
    ([(⟨[0], 4⟩ : Example ℕ), ⟨[0], 5⟩] ≠ []) ∧
    lookupDom [(0, [0])] 0 = some [0] ∧
    ([0] : List ℕ).Nodup ∧
    split_entropy 0 [(0, [0])] [(⟨[0], 4⟩ : Example ℕ), ⟨[0], 5⟩] ≤
      entropy [(⟨[0], 4⟩ : Example ℕ), ⟨[0], 5⟩] :=
  ⟨by decide, rfl, by decide,
    split_entropy_le_entropy 0 [(0, [0])] _ [0] (by decide) rfl (by decide)⟩

theorem nent_le_log_card (examples : List (Example α))
    (hne : examples ≠ []) :
    nent examples ≤
      Real.log (((examples.map Example.label).toFinset.card : ℝ)) := by
  have hN : 0 < examples.length := List.length_pos.mpr hne
  have hNne : ((examples.length : ℝ)) ≠ 0 := by positivity
  have hCne : (examples.map Example.label).toFinset.Nonempty := by
    obtain ⟨e, he⟩ := List.exists_mem_of_ne_nil _ hne
    exact ⟨e.label, List.mem_toFinset.mpr (List.mem_map.mpr ⟨e, he, rfl⟩)⟩
  have hK : 0 < (examples.map Example.label).toFinset.card :=
    Finset.card_pos.mpr hCne
  have hKne : (((examples.map Example.label).toFinset.card : ℝ)) ≠ 0 := by
    positivity
  have h0 : ∀ c ∈ (examples.map Example.label).toFinset,
      (0:ℝ) ≤ 1 / ((examples.map Example.label).toFinset.card : ℝ) :=
    fun c _ => by positivity
  have h1 : (∑ _c in (examples.map Example.label).toFinset,
      (1:ℝ) / ((examples.map Example.label).toFinset.card : ℝ)) = 1 := by
    rw [Finset.sum_const, nsmul_eq_mul]
    field_simp
  have hmem : ∀ c ∈ (examples.map Example.label).toFinset,
      (((examples.map Example.label).count c : ℝ) /
        (examples.length : ℝ)) ∈ Set.Ici (0:ℝ) :=
    fun c _ => Set.mem_Ici.mpr (by positivity)
  have hjen := Real.concaveOn_negMulLog.le_map_sum h0 h1 hmem
  simp only [smul_eq_mul] at hjen
  have hpsum : (∑ c in (examples.map Example.label).toFinset,
      (1:ℝ) / ((examples.map Example.label).toFinset.card : ℝ) *
        (((examples.map Example.label).count c : ℝ) /
          (examples.length : ℝ))) =
      1 / ((examples.map Example.label).toFinset.card : ℝ) := by
    rw [← Finset.mul_sum, ← Finset.sum_div, ← Nat.cast_sum,
      sum_label_count examples, div_self hNne, mul_one]
  rw [hpsum] at hjen
  have hscale : nent examples ≤
      ((examples.map Example.label).toFinset.card : ℝ) *
        Real.negMulLog (1 / ((examples.map Example.label).toFinset.card : ℝ)) := by
    have hmul := mul_le_mul_of_nonneg_left hjen
      (le_of_lt (show (0:ℝ) < ((examples.map Example.label).toFinset.card : ℝ)
        from by positivity))
    rw [← Finset.mul_sum] at hmul
    calc nent examples
        = ((examples.map Example.label).toFinset.card : ℝ) *
          ((1:ℝ) / ((examples.map Example.label).toFinset.card : ℝ)) *
          nent examples := by
          field_simp
      _ = ((examples.map Example.label).toFinset.card : ℝ) *
          (((1:ℝ) / ((examples.map Example.label).toFinset.card : ℝ)) *
          nent examples) := by ring
      _ ≤ ((examples.map Example.label).toFinset.card : ℝ) *
          Real.negMulLog (1 / ((examples.map Example.label).toFinset.card : ℝ)) := by
          refine mul_le_mul_of_nonneg_left ?_ (by positivity)
          have : ((1:ℝ) / ((examples.map Example.label).toFinset.card : ℝ)) *
              nent examples =
              ∑ c in (examples.map Example.label).toFinset,
                (1:ℝ) / ((examples.map Example.label).toFinset.card : ℝ) *
                  Real.negMulLog (((examples.map Example.label).count c : ℝ) /
                    (examples.length : ℝ)) := by
            rw [← Finset.mul_sum, nent]
          rw [this]
          exact hjen
  refine le_trans hscale ?_
  rw [Real.negMulLog, one_div, Real.log_inv]
  field_simp

/-- Claim C6: for every non-empty example list, the entropy lies between `0`
and `log2 k` where `k` is the number of distinct class labels present; it is
`0` exactly when all examples share one class label; and it equals the
Shannon sum of `-p * log2 p` over the empirical label frequencies
`p = count / total`. -/
theorem entropy_bounds (examples : List (Example α)) (hne : examples ≠ []) :
    0 ≤ entropy examples ∧
    entropy examples ≤
      Real.logb 2 (((examples.map Example.label).dedup.length : ℝ)) ∧
    (entropy examples = 0 ↔ ∃ c, ∀ e ∈ examples, e.label = c) ∧
    entropy examples = ∑ c in (examples.map Example.label).toFinset,
      -(((examples.map Example.label).count c : ℝ) / (examples.length : ℝ)) *
        Real.logb 2 (((examples.map Example.label).count c : ℝ) /
          (examples.length : ℝ)) := by
  have hN : 0 < examples.length := List.length_pos.mpr hne
  have hNne : ((examples.length : ℝ)) ≠ 0 := by positivity
  have hlog : (0:ℝ) < Real.log 2 := Real.log_pos (by norm_num)
  have hlablen : (examples.map Example.label).length = examples.length :=
    List.length_map _ _
  refine ⟨entropy_nonneg examples, ?_, ?_, ?_⟩
  · rw [entropy_eq_nent, ← List.card_toFinset, ← Real.log_div_log]
    gcongr
    exact nent_le_log_card examples hne
  · constructor
    · intro hz
      rw [entropy_eq_nent] at hz
      have hnent : nent examples = 0 := by
        rcases div_eq_zero_iff.mp hz with h | h
        · exact h
        · exact absurd h (ne_of_gt hlog)
      have hterm0 : ∀ c ∈ (examples.map Example.label).toFinset,
          Real.negMulLog (((examples.map Example.label).count c : ℝ) /
            (examples.length : ℝ)) = 0 := by
        have hnn : ∀ c ∈ (examples.map Example.label).toFinset,
            0 ≤ Real.negMulLog (((examples.map Example.label).count c : ℝ) /
              (examples.length : ℝ)) := by
          intro c _
          refine Real.negMulLog_nonneg (by positivity) ?_
          rw [div_le_one (by positivity)]
          have := List.count_le_length c (examples.map Example.label)
          rw [hlablen] at this
          exact_mod_cast this
        exact (Finset.sum_eq_zero_iff_of_nonneg hnn).mp hnent
      obtain ⟨e0, he0⟩ := List.exists_mem_of_ne_nil _ hne
      have hc0 : e0.label ∈ (examples.map Example.label).toFinset :=
        List.mem_toFinset.mpr (List.mem_map.mpr ⟨e0, he0, rfl⟩)
      have hz0 := hterm0 e0.label hc0
      have hppos : 0 < ((examples.map Example.label).count e0.label : ℝ) /
          (examples.length : ℝ) := by
        have hc1 : 0 < (examples.map Example.label).count e0.label :=
          List.count_pos_iff_mem.mpr (List.mem_toFinset.mp hc0)
        positivity
      have hp1 : ((examples.map Example.label).count e0.label : ℝ) /
          (examples.length : ℝ) = 1 := by
        rw [Real.negMulLog] at hz0
        have hlogz : Real.log (((examples.map Example.label).count e0.label : ℝ) /
            (examples.length : ℝ)) = 0 := by
          rcases mul_eq_zero.mp (by linarith [hz0] :
              (((examples.map Example.label).count e0.label : ℝ) /
                (examples.length : ℝ)) *
              Real.log (((examples.map Example.label).count e0.label : ℝ) /
                (examples.length : ℝ)) = 0) with h | h
          · exact absurd h (ne_of_gt hppos)
          · exact h
        rcases Real.log_eq_zero.mp hlogz with h | h | h
        · exact absurd h (ne_of_gt hppos)
        · exact h
        · exact absurd h (by linarith)
      have hcnt : (examples.map Example.label).count e0.label =
          (examples.map Example.label).length := by
        rw [hlablen]
        have := hp1
        rw [div_eq_one_iff_eq hNne] at this
        exact_mod_cast this
      refine ⟨e0.label, fun e he => ?_⟩
      exact (List.count_eq_length.mp hcnt (e.label)
        (List.mem_map.mpr ⟨e, he, rfl⟩)).symm
    · rintro ⟨c, hc⟩
      have hcnt : (examples.map Example.label).count c =
          (examples.map Example.label).length := by
        refine List.count_eq_length.mpr ?_
        intro b hb
        obtain ⟨e, he, hbe⟩ := List.mem_map.mp hb
        rw [← hbe, hc e he]
      have hCone : (examples.map Example.label).toFinset = {c} := by
        obtain ⟨e0, he0⟩ := List.exists_mem_of_ne_nil _ hne
        ext x
        simp only [List.mem_toFinset, Finset.mem_singleton]
        constructor
        · intro hx
          obtain ⟨e, he, hxe⟩ := List.mem_map.mp hx
          rw [← hxe, hc e he]
        · intro hx
          subst hx
          exact List.mem_map.mpr ⟨e0, he0, hc e0 he0⟩
      rw [entropy_eq_nent, nent, hCone, Finset.sum_singleton, hcnt, hlablen,
        div_self hNne]
      simp
  · rw [entropy_eq_nent, nent, Finset.sum_div]
    exact Finset.sum_congr rfl fun c _ => (neg_mul_logb _).symm

/-- Witness for claim C6 at a concrete two-example, two-class table. -/
theorem entropy_bounds_witness :
    ([(⟨[0], 4⟩ : Example ℕ), ⟨[0], 5⟩] ≠ []) ∧
    (0 ≤ entropy [(⟨[0], 4⟩ : Example ℕ), ⟨[0], 5⟩] ∧
      entropy [(⟨[0], 4⟩ : Example ℕ), ⟨[0], 5⟩] ≤
        Real.logb 2 ((([(⟨[0], 4⟩ : Example ℕ), ⟨[0], 5⟩].map
          Example.label).dedup.length : ℝ)) ∧
      (entropy [(⟨[0], 4⟩ : Example ℕ), ⟨[0], 5⟩] = 0 ↔
        ∃ c, ∀ e ∈ [(⟨[0], 4⟩ : Example ℕ), ⟨[0], 5⟩], e.label = c) ∧
      entropy [(⟨[0], 4⟩ : Example ℕ), ⟨[0], 5⟩] =
        ∑ c in ([(⟨[0], 4⟩ : Example ℕ), ⟨[0], 5⟩].map
            Example.label).toFinset,
          -((([(⟨[0], 4⟩ : Example ℕ), ⟨[0], 5⟩].map
              Example.label).count c : ℝ) / 2) *
            Real.logb 2 ((([(⟨[0], 4⟩ : Example ℕ), ⟨[0], 5⟩].map
              Example.label).count c : ℝ) / 2)) :=
  ⟨by decide, entropy_bounds _ (by decide)⟩

end Treehe1
